import Mathlib

/-!
Verification of the SIRDS (Single Image Random Dot Stereogram) generator of
`src/sirds.ts`.  The numeric domain of the source (JavaScript numbers) is
embedded as `ℚ`; the 32-bit integer arithmetic of the mulberry32 generator is
embedded as `ℕ` with explicit reduction modulo `2^32`; typed-array indexing is
embedded with `Option`-returning reads (`List.get?`) and bounds-checked writes
(`aset`), so an out-of-bounds access surfaces as `none`.
-/

/-- Default eye separation in pixels, source constant `DEFAULT_EYESEP = 82`. -/
def DEFAULT_EYESEP : ℚ := 82

/-- Default observer distance in pixels, source constant `DEFAULT_OBSDIST = 520`. -/
def DEFAULT_OBSDIST : ℚ := 520

/-- Background depth, source constant `BKDEPTH = 0`. -/
def BKDEPTH : ℚ := 0

/-- Separation in pixels, from the source:
`d = ht - BKDEPTH; if (d <= 0) return 0; return (d * eyeSep) / (d + obsDist)`. -/
def separation (ht eyeSep obsDist : ℚ) : ℚ :=
  let d := ht - BKDEPTH
  if d ≤ 0 then 0 else d * eyeSep / (d + obsDist)

/-- State update of the mulberry32 generator: `state = (state + 0x6d2b79f5) >>> 0`. -/
def rngStep (s : ℕ) : ℕ := (s + 0x6D2B79F5) % 4294967296

/-- Output scrambling of mulberry32, applied to the updated state `s`:
`t = imul(t ^ (t >>> 15), t | 1); t ^= t + imul(t ^ (t >>> 7), t | 61);
return (t ^ (t >>> 14)) >>> 0` (each `imul` and the `^=` reduce modulo `2^32`). -/
def mbOut (s : ℕ) : ℕ :=
  let t1 := Nat.xor s (s >>> 15) * (s ||| 1) % 4294967296
  let t2 := Nat.xor t1 ((t1 + Nat.xor t1 (t1 >>> 7) * (t1 ||| 61) % 4294967296) % 4294967296)
  Nat.xor t2 (t2 >>> 14)

/-- Value in `[0,1)` produced from the updated mulberry32 state: the scrambled
32-bit word divided by `4294967296`. -/
def mbValue (s : ℕ) : ℚ := (mbOut s : ℚ) / 4294967296

/-- One call of the closure returned by `createSeededRandom`: advances the state
and returns the new state together with the drawn value. -/
def mb32 (state : ℕ) : ℕ × ℚ := (rngStep state, mbValue (rngStep state))

/-- JavaScript `seed >>> 0`: reduction of an integer seed to `[0, 2^32)`. -/
def toUint32 (seed : ℤ) : ℕ := (seed % 4294967296).toNat

/-- Fuel-bounded embedding of the source loop
`while (link[i] !== i) i = link[i]; return i;` — each iteration reads `link`
once, and exhausted fuel (or an out-of-bounds read) yields `none`. -/
def findRootAux (link : List ℕ) : ℕ → ℕ → Option ℕ
  | 0, _ => none
  | fuel + 1, i =>
    (link.get? i).bind fun j => if j = i then some i else findRootAux link fuel j

/-- Source `findRoot(link, i)`: follow the chain with fuel `link.length`, which
suffices for every chain satisfying the forest invariant. -/
def findRoot (link : List ℕ) (i : ℕ) : Option ℕ :=
  findRootAux link link.length i

/-- Bounds-checked write into a byte buffer: `none` when the index is out of
bounds, mirroring that a well-formed run never writes out of bounds. -/
def aset (l : List ℕ) (i v : ℕ) : Option (List ℕ) :=
  if i < l.length then some (l.set i v) else none

/-- Monadic for-loop over `0, 1, ..., n-1` in the `Option` monad. -/
def foldRangeM {σ : Type} (f : ℕ → σ → Option σ) : ℕ → σ → Option σ
  | 0, s => some s
  | n + 1, s => (foldRangeM f n s).bind (f n)

/-- Body of the link-construction loop of `depthToSirds` for column `x`:
compute the separation from the depth sample, skip sub-2-pixel separations,
otherwise link `rightX` to the root of `leftX` when both are in bounds. -/
def linkStep (depth : List ℕ) (rowOff width : ℕ) (eyeSep obsDist : ℚ) (x : ℕ)
    (link : List ℕ) : Option (List ℕ) :=
  (depth.get? (rowOff + x)).bind fun ht =>
    let sep := separation (ht : ℚ) eyeSep obsDist
    if sep < 2 then some link
    else
      let half := sep * (1 / 2)
      let leftX := ⌊(x : ℚ) - half⌋
      let rightX := ⌊(x : ℚ) + half⌋
      if 0 ≤ leftX ∧ rightX < (width : ℤ) ∧ leftX ≠ rightX then
        (findRoot link leftX.toNat).bind fun rootLeft =>
          aset link rightX.toNat rootLeft
      else some link

/-- Per-row link construction: reset `link[x] = x` for every column, then run
`linkStep` for `x = 0, ..., width-1`. -/
def buildLinks (depth : List ℕ) (rowOff width : ℕ) (eyeSep obsDist : ℚ) :
    Option (List ℕ) :=
  foldRangeM (linkStep depth rowOff width eyeSep obsDist) width (List.range width)

/-- Write of one output pixel: the four consecutive bytes
`data[i] = a; data[i+1] = b; data[i+2] = c; data[i+3] = e`. -/
def write4 (data : List ℕ) (i a b c e : ℕ) : Option (List ℕ) :=
  (aset data i a).bind fun d1 =>
    (aset d1 (i + 1) b).bind fun d2 =>
      (aset d2 (i + 2) c).bind fun d3 =>
        aset d3 (i + 3) e

/-- Body of the colorize loop of `depthToSirds` for column `x`: a root column
draws a fresh gray value from the stream, a linked column copies the RGB bytes
already written at column `link[x]`; both write alpha `255`. -/
def colorStep (link : List ℕ) (rowOff : ℕ) (x : ℕ) (st : List ℕ × ℕ) :
    Option (List ℕ × ℕ) :=
  let data := st.1
  let rng := st.2
  let i := (rowOff + x) * 4
  (link.get? x).bind fun lx =>
    if lx = x then
      let s := (mb32 rng).1
      let v := (⌊(mb32 rng).2 * 256⌋).toNat
      (write4 data i v v v 255).map fun d4 => (d4, s)
    else
      let src := (rowOff + lx) * 4
      (data.get? src).bind fun r =>
        (data.get? (src + 1)).bind fun g =>
          (data.get? (src + 2)).bind fun b =>
            (write4 data i r g b 255).map fun d4 => (d4, rng)

/-- Colorize one row left to right, threading the output buffer and the shared
random-stream state. -/
def colorizeRow (link : List ℕ) (rowOff width : ℕ) (data : List ℕ) (rng : ℕ) :
    Option (List ℕ × ℕ) :=
  foldRangeM (colorStep link rowOff) width (data, rng)

/-- Processing of one row `y` of `depthToSirds`: build the row's link forest,
then colorize the row. -/
def rowStep (depth : List ℕ) (width : ℕ) (eyeSep obsDist : ℚ) (y : ℕ)
    (st : List ℕ × ℕ) : Option (List ℕ × ℕ) :=
  (buildLinks depth (y * width) width eyeSep obsDist).bind fun link =>
    colorizeRow link (y * width) width st.1 st.2

/-- Embedding of `depthToSirds(depth, width, height, out, seed, eyeSep, obsDist)`:
seed the stream once with `seed >>> 0`, process every row, and return the final
RGBA byte buffer (the mutated `out.data`). -/
def depthToSirds (depth : List ℕ) (width height : ℕ) (out : List ℕ) (seed : ℤ)
    (eyeSep obsDist : ℚ) : Option (List ℕ) :=
  (foldRangeM (rowStep depth width eyeSep obsDist) height (out, toUint32 seed)).map Prod.fst

/-- Forest invariant of a row's link buffer: length `width` and every stored
link points at or to the left of its own index. -/
def LinkInv (width : ℕ) (link : List ℕ) : Prop :=
  link.length = width ∧ ∀ i j, link.get? i = some j → j ≤ i

/-- Gray byte produced from the mulberry32 state `s`: `floor(random() * 256)`. -/
def grayOf (s : ℕ) : ℕ := (⌊mbValue s * 256⌋).toNat

/-- Number of root columns among `0, ..., n-1` of a link buffer; each root
consumes exactly one draw from the shared random stream. -/
def rootCount (link : List ℕ) (n : ℕ) : ℕ :=
  (List.range n).countP fun c => link.get? c == some c

/-- Expected color of column `x`: the gray value that the root of `x`'s chain
draws, namely draw number `rootCount link r + 1` from the row's starting
stream state. -/
def pixColor (link : List ℕ) (rng : ℕ) (x : ℕ) : ℕ :=
  match findRoot link x with
  | some r => grayOf (rngStep^[rootCount link r + 1] rng)
  | none => 0

/-! Basic lemmas about the write helper and the loop combinator. -/

theorem aset_some {l : List ℕ} {i v : ℕ} (h : i < l.length) :
    aset l i v = some (l.set i v) := by
  simp [aset, h]

theorem aset_eq_some {l b : List ℕ} {i v : ℕ} (h : aset l i v = some b) :
    b = l.set i v ∧ i < l.length := by
  by_cases hi : i < l.length
  · rw [aset_some hi] at h
    exact ⟨(Option.some.inj h).symm, hi⟩
  · simp [aset, hi] at h

theorem aset_length {l b : List ℕ} {i v : ℕ} (h : aset l i v = some b) :
    b.length = l.length := by
  obtain ⟨rfl, -⟩ := aset_eq_some h
  simp

theorem aset_get_same {l b : List ℕ} {i v : ℕ} (h : aset l i v = some b) :
    b.get? i = some v := by
  obtain ⟨rfl, hi⟩ := aset_eq_some h
  exact List.get?_set_eq_of_lt v hi

theorem aset_get_ne {l b : List ℕ} {i v j : ℕ} (h : aset l i v = some b) (hj : j ≠ i) :
    b.get? j = l.get? j := by
  obtain ⟨rfl, -⟩ := aset_eq_some h
  exact List.get?_set_ne v l (Ne.symm hj)

theorem aset_isSome {l : List ℕ} {i v : ℕ} (h : i < l.length) :
    ∃ b, aset l i v = some b :=
  ⟨l.set i v, aset_some h⟩

theorem foldRangeM_zero {σ : Type} (f : ℕ → σ → Option σ) (s : σ) :
    foldRangeM f 0 s = some s := rfl

theorem foldRangeM_succ {σ : Type} (f : ℕ → σ → Option σ) (n : ℕ) (s : σ) :
    foldRangeM f (n + 1) s = (foldRangeM f n s).bind (f n) := rfl

theorem foldRangeM_succ_some {σ : Type} {f : ℕ → σ → Option σ} {n : ℕ} {s t : σ}
    (h : foldRangeM f (n + 1) s = some t) :
    ∃ u, foldRangeM f n s = some u ∧ f n u = some t := by
  rw [foldRangeM_succ] at h
  cases hu : foldRangeM f n s with
  | none => rw [hu] at h; simp at h
  | some u => rw [hu] at h; exact ⟨u, rfl, h⟩

theorem foldRangeM_add {σ : Type} (f : ℕ → σ → Option σ) (m k : ℕ) (s : σ) :
    foldRangeM f (m + k) s =
      (foldRangeM f m s).bind (foldRangeM (fun i => f (m + i)) k) := by
  induction k with
  | zero => cases h : foldRangeM f m s <;> simp [foldRangeM_zero, h]
  | succ k ih =>
      rw [show m + (k + 1) = (m + k) + 1 by omega, foldRangeM_succ, ih]
      cases h : foldRangeM f m s with
      | none => simp
      | some u => simp [foldRangeM_succ]

theorem foldRangeM_some_mono {σ : Type} {f : ℕ → σ → Option σ} {n : ℕ} {s t : σ}
    (h : foldRangeM f n s = some t) (m : ℕ) (hm : m ≤ n) :
    ∃ u, foldRangeM f m s = some u := by
  obtain ⟨k, rfl⟩ := Nat.exists_eq_add_of_le hm
  rw [foldRangeM_add] at h
  cases hu : foldRangeM f m s with
  | none => rw [hu] at h; simp at h
  | some u => exact ⟨u, rfl⟩

/-! Lemmas about `findRootAux` under the forest invariant. -/

theorem findRootAux_succ (link : List ℕ) (fuel i : ℕ) :
    findRootAux link (fuel + 1) i =
      (link.get? i).bind fun j => if j = i then some i else findRootAux link fuel j := rfl

theorem findRootAux_le {link : List ℕ} (hinv : ∀ i j, link.get? i = some j → j ≤ i) :
    ∀ fuel i r, findRootAux link fuel i = some r → r ≤ i ∧ link.get? r = some r := by
  intro fuel
  induction fuel with
  | zero => intro i r h; simp [findRootAux] at h
  | succ fuel ih =>
      intro i r h
      rw [findRootAux_succ] at h
      cases hg : link.get? i with
      | none => rw [hg] at h; simp at h
      | some j =>
          rw [hg, Option.some_bind] at h
          by_cases hj : j = i
          · rw [if_pos hj] at h
            obtain rfl : i = r := Option.some.inj h
            exact ⟨le_refl i, hj ▸ hg⟩
          · rw [if_neg hj] at h
            obtain ⟨h1, h2⟩ := ih j r h
            exact ⟨le_trans h1 (hinv i j hg), h2⟩

theorem findRootAux_isSome {link : List ℕ} (hinv : ∀ i j, link.get? i = some j → j ≤ i) :
    ∀ fuel i, i < link.length → i < fuel →
      ∃ r, findRootAux link fuel i = some r := by
  intro fuel
  induction fuel with
  | zero => intro i _ h; omega
  | succ fuel ih =>
      intro i hi hf
      cases hg : link.get? i with
      | none => rw [List.get?_eq_none] at hg; omega
      | some j =>
          rw [findRootAux_succ, hg, Option.some_bind]
          by_cases hj : j = i
          · exact ⟨i, by rw [if_pos hj]⟩
          · have hji : j < i := lt_of_le_of_ne (hinv i j hg) hj
            obtain ⟨r, hr⟩ := ih j (lt_trans hji hi) (by omega)
            exact ⟨r, by rw [if_neg hj]; exact hr⟩

theorem findRootAux_congr {link : List ℕ} (hinv : ∀ i j, link.get? i = some j → j ≤ i) :
    ∀ i f₁ f₂, i < f₁ → i < f₂ → findRootAux link f₁ i = findRootAux link f₂ i := by
  intro i
  induction i using Nat.strong_induction_on with
  | _ i ih =>
      intro f₁ f₂ h₁ h₂
      obtain ⟨a, rfl⟩ : ∃ a, f₁ = a + 1 := ⟨f₁ - 1, by omega⟩
      obtain ⟨b, rfl⟩ : ∃ b, f₂ = b + 1 := ⟨f₂ - 1, by omega⟩
      rw [findRootAux_succ, findRootAux_succ]
      cases hg : link.get? i with
      | none => rfl
      | some j =>
          rw [Option.some_bind, Option.some_bind]
          by_cases hj : j = i
          · rw [if_pos hj, if_pos hj]
          · have hji : j < i := lt_of_le_of_ne (hinv i j hg) hj
            rw [if_neg hj, if_neg hj, ih j hji a b (by omega) (by omega)]

theorem findRoot_fix {link : List ℕ} {r : ℕ} (h : link.get? r = some r) :
    findRoot link r = some r := by
  have hr : r < link.length := by
    by_contra hcon
    rw [List.get?_eq_none.mpr (by omega)] at h
    simp at h
  obtain ⟨f, hf⟩ : ∃ f, link.length = f + 1 := ⟨link.length - 1, by omega⟩
  rw [findRoot, hf, findRootAux_succ, h, Option.some_bind, if_pos rfl]

theorem findRoot_step {link : List ℕ} (hinv : ∀ i j, link.get? i = some j → j ≤ i)
    {i j : ℕ} (hg : link.get? i = some j) (hj : j ≠ i) :
    findRoot link i = findRoot link j := by
  have hi : i < link.length := by
    by_contra hcon
    rw [List.get?_eq_none.mpr (by omega)] at hg
    simp at hg
  have hji : j < i := lt_of_le_of_ne (hinv i j hg) hj
  obtain ⟨f, hf⟩ : ∃ f, link.length = f + 1 := ⟨link.length - 1, by omega⟩
  rw [findRoot, findRoot, hf, findRootAux_succ, hg, Option.some_bind, if_neg hj]
  exact findRootAux_congr hinv j f (f + 1) (by omega) (by omega)

/-! Lemmas about reads and the quad-byte pixel write. -/

theorem get?_isSome_of_lt {l : List ℕ} {i : ℕ} (h : i < l.length) :
    ∃ v, l.get? i = some v := by
  cases hg : l.get? i with
  | none => rw [List.get?_eq_none] at hg; omega
  | some v => exact ⟨v, rfl⟩

theorem get?_lt_of_some {l : List ℕ} {i v : ℕ} (h : l.get? i = some v) :
    i < l.length := by
  by_contra hcon
  rw [List.get?_eq_none.mpr (by omega)] at h
  simp at h

theorem write4_eq_some {data d : List ℕ} {i a b c e : ℕ}
    (h : write4 data i a b c e = some d) :
    d = (((data.set i a).set (i + 1) b).set (i + 2) c).set (i + 3) e ∧
      i + 3 < data.length := by
  simp only [write4] at h
  cases h1 : aset data i a with
  | none => rw [h1] at h; simp at h
  | some d1 =>
      rw [h1, Option.some_bind] at h
      cases h2 : aset d1 (i + 1) b with
      | none => rw [h2] at h; simp at h
      | some d2 =>
          rw [h2, Option.some_bind] at h
          cases h3 : aset d2 (i + 2) c with
          | none => rw [h3] at h; simp at h
          | some d3 =>
              rw [h3, Option.some_bind] at h
              obtain ⟨rfl, hl1⟩ := aset_eq_some h1
              obtain ⟨rfl, hl2⟩ := aset_eq_some h2
              obtain ⟨rfl, hl3⟩ := aset_eq_some h3
              obtain ⟨rfl, hl4⟩ := aset_eq_some h
              simp only [List.length_set] at hl4
              exact ⟨rfl, by omega⟩

theorem write4_isSome {data : List ℕ} {i : ℕ} (a b c e : ℕ)
    (h : i + 3 < data.length) :
    ∃ d, write4 data i a b c e = some d := by
  refine ⟨(((data.set i a).set (i + 1) b).set (i + 2) c).set (i + 3) e, ?_⟩
  simp only [write4]
  rw [aset_some (by omega), Option.some_bind,
    aset_some (by simp; omega), Option.some_bind,
    aset_some (by simp; omega), Option.some_bind,
    aset_some (by simp; omega)]

theorem write4_length {data d : List ℕ} {i a b c e : ℕ}
    (h : write4 data i a b c e = some d) : d.length = data.length := by
  obtain ⟨rfl, -⟩ := write4_eq_some h
  simp

theorem write4_get_other {data d : List ℕ} {i a b c e j : ℕ}
    (h : write4 data i a b c e = some d) (hj : j < i ∨ i + 3 < j) :
    d.get? j = data.get? j := by
  obtain ⟨rfl, -⟩ := write4_eq_some h
  rw [List.get?_set_ne e _ (by omega), List.get?_set_ne c _ (by omega),
    List.get?_set_ne b _ (by omega), List.get?_set_ne a _ (by omega)]

theorem write4_get_0 {data d : List ℕ} {i a b c e : ℕ}
    (h : write4 data i a b c e = some d) : d.get? i = some a := by
  obtain ⟨rfl, hlen⟩ := write4_eq_some h
  rw [List.get?_set_ne e _ (by omega), List.get?_set_ne c _ (by omega),
    List.get?_set_ne b _ (by omega)]
  exact List.get?_set_eq_of_lt a (by omega)

theorem write4_get_1 {data d : List ℕ} {i a b c e : ℕ}
    (h : write4 data i a b c e = some d) : d.get? (i + 1) = some b := by
  obtain ⟨rfl, hlen⟩ := write4_eq_some h
  rw [List.get?_set_ne e _ (by omega), List.get?_set_ne c _ (by omega)]
  exact List.get?_set_eq_of_lt b (by simp; omega)

theorem write4_get_2 {data d : List ℕ} {i a b c e : ℕ}
    (h : write4 data i a b c e = some d) : d.get? (i + 2) = some c := by
  obtain ⟨rfl, hlen⟩ := write4_eq_some h
  rw [List.get?_set_ne e _ (by omega)]
  exact List.get?_set_eq_of_lt c (by simp; omega)

theorem write4_get_3 {data d : List ℕ} {i a b c e : ℕ}
    (h : write4 data i a b c e = some d) : d.get? (i + 3) = some e := by
  obtain ⟨rfl, hlen⟩ := write4_eq_some h
  exact List.get?_set_eq_of_lt e (by simp; omega)

/-! Lemmas about `linkStep` and `buildLinks`: the forest invariant is
established by construction and link construction never fails on a
well-formed row. -/

theorem linkStep_inv {depth : List ℕ} {rowOff width : ℕ} {e o : ℚ} {x : ℕ}
    {link link' : List ℕ} (hinv : LinkInv width link)
    (h : linkStep depth rowOff width e o x link = some link') :
    LinkInv width link' := by
  simp only [linkStep] at h
  cases hht : depth.get? (rowOff + x) with
  | none => rw [hht] at h; simp at h
  | some ht =>
      rw [hht, Option.some_bind] at h
      by_cases hsep : separation (ht : ℚ) e o < 2
      · rw [if_pos hsep] at h
        exact (Option.some.inj h) ▸ hinv
      · rw [if_neg hsep] at h
        by_cases hg : 0 ≤ ⌊(x : ℚ) - separation (ht : ℚ) e o * (1 / 2)⌋ ∧
            ⌊(x : ℚ) + separation (ht : ℚ) e o * (1 / 2)⌋ < (width : ℤ) ∧
            ⌊(x : ℚ) - separation (ht : ℚ) e o * (1 / 2)⌋ ≠
              ⌊(x : ℚ) + separation (ht : ℚ) e o * (1 / 2)⌋
        · rw [if_pos hg] at h
          obtain ⟨h0, hw, hne⟩ := hg
          have hsep2 : (2 : ℚ) ≤ separation (ht : ℚ) e o := not_lt.mp hsep
          have hhalf : (0 : ℚ) ≤ separation (ht : ℚ) e o * (1 / 2) := by linarith
          have hle : ⌊(x : ℚ) - separation (ht : ℚ) e o * (1 / 2)⌋ ≤
              ⌊(x : ℚ) + separation (ht : ℚ) e o * (1 / 2)⌋ :=
            Int.floor_le_floor (by linarith)
          have hlt := lt_of_le_of_ne hle hne
          cases hfr : findRoot link (⌊(x : ℚ) - separation (ht : ℚ) e o * (1 / 2)⌋).toNat with
          | none => rw [hfr] at h; simp at h
          | some rootLeft =>
              rw [hfr, Option.some_bind] at h
              obtain ⟨hrl, -⟩ := findRootAux_le hinv.2 link.length _ _ hfr
              obtain ⟨rfl, hlen⟩ := aset_eq_some h
              constructor
              · rw [List.length_set]; exact hinv.1
              · intro i j hij
                by_cases hir : i = (⌊(x : ℚ) + separation (ht : ℚ) e o * (1 / 2)⌋).toNat
                · subst hir
                  rw [List.get?_set_eq_of_lt _ hlen] at hij
                  obtain rfl : rootLeft = j := Option.some.inj hij
                  omega
                · rw [List.get?_set_ne _ _ (fun hc => hir hc.symm)] at hij
                  exact hinv.2 i j hij
        · rw [if_neg hg] at h
          exact (Option.some.inj h) ▸ hinv

theorem linkStep_isSome {depth : List ℕ} {rowOff width : ℕ} {e o : ℚ} {x : ℕ}
    {link : List ℕ} (hinv : LinkInv width link) (hx : rowOff + x < depth.length) :
    ∃ link', linkStep depth rowOff width e o x link = some link' := by
  obtain ⟨ht, hht⟩ := get?_isSome_of_lt hx
  simp only [linkStep]
  rw [hht, Option.some_bind]
  by_cases hsep : separation (ht : ℚ) e o < 2
  · exact ⟨link, by rw [if_pos hsep]⟩
  · rw [if_neg hsep]
    by_cases hg : 0 ≤ ⌊(x : ℚ) - separation (ht : ℚ) e o * (1 / 2)⌋ ∧
        ⌊(x : ℚ) + separation (ht : ℚ) e o * (1 / 2)⌋ < (width : ℤ) ∧
        ⌊(x : ℚ) - separation (ht : ℚ) e o * (1 / 2)⌋ ≠
          ⌊(x : ℚ) + separation (ht : ℚ) e o * (1 / 2)⌋
    · rw [if_pos hg]
      obtain ⟨h0, hw, hne⟩ := hg
      have hsep2 : (2 : ℚ) ≤ separation (ht : ℚ) e o := not_lt.mp hsep
      have hle : ⌊(x : ℚ) - separation (ht : ℚ) e o * (1 / 2)⌋ ≤
          ⌊(x : ℚ) + separation (ht : ℚ) e o * (1 / 2)⌋ :=
        Int.floor_le_floor (by linarith)
      have hlt := lt_of_le_of_ne hle hne
      have hlw : (⌊(x : ℚ) - separation (ht : ℚ) e o * (1 / 2)⌋).toNat < link.length := by
        rw [hinv.1]; omega
      obtain ⟨r, hr⟩ := findRootAux_isSome hinv.2 link.length _ hlw hlw
      rw [show findRoot link (⌊(x : ℚ) - separation (ht : ℚ) e o * (1 / 2)⌋).toNat =
        findRootAux link link.length (⌊(x : ℚ) - separation (ht : ℚ) e o * (1 / 2)⌋).toNat
        from rfl, hr, Option.some_bind]
      exact aset_isSome (by rw [hinv.1]; omega)
    · exact ⟨link, by rw [if_neg hg]⟩

theorem buildLinks_inv {depth : List ℕ} {rowOff width : ℕ} {e o : ℚ} :
    ∀ n link, foldRangeM (linkStep depth rowOff width e o) n (List.range width) = some link →
      LinkInv width link := by
  intro n
  induction n with
  | zero =>
      intro link h
      obtain rfl : List.range width = link := Option.some.inj h
      refine ⟨List.length_range width, fun i j hij => ?_⟩
      have hi : i < width := by
        have := get?_lt_of_some hij
        rwa [List.length_range] at this
      rw [List.get?_range hi] at hij
      exact le_of_eq (Option.some.inj hij).symm
  | succ n ih =>
      intro link h
      obtain ⟨u, hu, hstep⟩ := foldRangeM_succ_some h
      exact linkStep_inv (ih u hu) hstep

theorem buildLinks_isSome {depth : List ℕ} {rowOff width : ℕ} {e o : ℚ}
    (hd : rowOff + width ≤ depth.length) :
    ∀ n, n ≤ width →
      ∃ link, foldRangeM (linkStep depth rowOff width e o) n (List.range width) = some link := by
  intro n
  induction n with
  | zero => exact fun _ => ⟨List.range width, rfl⟩
  | succ n ih =>
      intro hn
      obtain ⟨u, hu⟩ := ih (by omega)
      have hx : rowOff + n < depth.length := by omega
      obtain ⟨link', hstep⟩ :=
        linkStep_isSome (e := e) (o := o) (buildLinks_inv n u hu) hx
      exact ⟨link', by rw [foldRangeM_succ, hu, Option.some_bind]; exact hstep⟩

/-! Lemmas about root counting and the expected pixel color. -/

theorem pair_some_inj {a c : List ℕ} {b d : ℕ}
    (h : (some (a, b) : Option (List ℕ × ℕ)) = some (c, d)) : a = c ∧ b = d := by
  have h' := Option.some.inj h
  exact ⟨congrArg Prod.fst h', congrArg Prod.snd h'⟩

theorem rootCount_zero (link : List ℕ) : rootCount link 0 = 0 := rfl

theorem rootCount_succ (link : List ℕ) (n : ℕ) :
    rootCount link (n + 1) =
      rootCount link n + if link.get? n = some n then 1 else 0 := by
  rw [rootCount, rootCount, List.range_succ, List.countP_append]
  congr 1
  by_cases h : link.get? n = some n <;> simp [List.countP_cons, h]

theorem pixColor_congr {link : List ℕ} {rng : ℕ} {a b : ℕ}
    (h : findRoot link a = findRoot link b) :
    pixColor link rng a = pixColor link rng b := by
  rw [pixColor, pixColor, h]

/-- Core characterization of the colorize loop: after `n ≤ width` steps the
stream state has advanced by one step per root column, bytes outside the
processed slice are untouched, and every processed column `c` holds the gray
value of its root together with alpha `255`. -/
theorem colorize_run {link : List ℕ} {width rowOff : ℕ} (hinv : LinkInv width link)
    (data : List ℕ) (rng : ℕ) :
    ∀ n, n ≤ width → ∀ dn rn,
      foldRangeM (colorStep link rowOff) n (data, rng) = some (dn, rn) →
      rn = rngStep^[rootCount link n] rng ∧
      dn.length = data.length ∧
      (∀ j, j < rowOff * 4 ∨ (rowOff + n) * 4 ≤ j → dn.get? j = data.get? j) ∧
      (∀ c, c < n →
        dn.get? ((rowOff + c) * 4) = some (pixColor link rng c) ∧
        dn.get? ((rowOff + c) * 4 + 1) = some (pixColor link rng c) ∧
        dn.get? ((rowOff + c) * 4 + 2) = some (pixColor link rng c) ∧
        dn.get? ((rowOff + c) * 4 + 3) = some 255) := by
  intro n
  induction n with
  | zero =>
      intro _ dn rn h
      obtain ⟨rfl, rfl⟩ := pair_some_inj h.symm
      refine ⟨by simp [rootCount_zero], rfl, fun j _ => rfl, fun c hc => absurd hc (by omega)⟩
  | succ n ih =>
      intro hn dn rn h
      obtain ⟨⟨dm, rm⟩, hm, hstep⟩ := foldRangeM_succ_some h
      obtain ⟨hrng, hlen, hframe, hset⟩ := ih (by omega) dm rm hm
      have hnw : n < width := by omega
      obtain ⟨L, hL⟩ := get?_isSome_of_lt (l := link) (by rw [hinv.1]; exact hnw)
      simp only [colorStep] at hstep
      rw [hL, Option.some_bind] at hstep
      by_cases hroot : L = n
      · subst hroot
        rw [if_pos rfl] at hstep
        cases hw : write4 dm ((rowOff + L) * 4) ((⌊(mb32 rm).2 * 256⌋).toNat)
            ((⌊(mb32 rm).2 * 256⌋).toNat) ((⌊(mb32 rm).2 * 256⌋).toNat) 255 with
        | none => rw [hw] at hstep; simp at hstep
        | some d4 =>
            rw [hw, Option.map_some'] at hstep
            obtain ⟨rfl, rfl⟩ := pair_some_inj hstep
            have hcnt : rootCount link (L + 1) = rootCount link L + 1 := by
              rw [rootCount_succ, if_pos hL]
            have hval : (⌊(mb32 rm).2 * 256⌋).toNat = pixColor link rng L := by
              rw [pixColor, findRoot_fix hL]
              show grayOf (rngStep rm) = grayOf (rngStep^[rootCount link L + 1] rng)
              rw [hrng, ← Function.iterate_succ_apply' rngStep]
            refine ⟨?_, ?_, ?_, ?_⟩
            · show (mb32 rm).1 = rngStep^[rootCount link (L + 1)] rng
              rw [hcnt, Function.iterate_succ_apply' rngStep]
              show rngStep rm = rngStep (rngStep^[rootCount link L] rng)
              rw [hrng]
            · rw [write4_length hw]; exact hlen
            · intro j hj
              rw [write4_get_other hw (by omega)]
              exact hframe j (by omega)
            · intro c hc
              by_cases hcL : c = L
              · subst hcL
                rw [write4_get_0 hw, write4_get_1 hw, write4_get_2 hw, write4_get_3 hw, hval]
                exact ⟨rfl, rfl, rfl, rfl⟩
              · have hcn : c < L := by omega
                have huntouched : ∀ k, k < 4 →
                    d4.get? ((rowOff + c) * 4 + k) = dm.get? ((rowOff + c) * 4 + k) := by
                  intro k hk
                  exact write4_get_other hw (by omega)
                obtain ⟨e0, e1, e2, e3⟩ := hset c hcn
                refine ⟨?_, ?_, ?_, ?_⟩
                · rw [show (rowOff + c) * 4 = (rowOff + c) * 4 + 0 by omega,
                    huntouched 0 (by omega)]
                  rw [show (rowOff + c) * 4 + 0 = (rowOff + c) * 4 by omega]
                  exact e0
                · rw [huntouched 1 (by omega)]; exact e1
                · rw [huntouched 2 (by omega)]; exact e2
                · rw [huntouched 3 (by omega)]; exact e3
      · rw [if_neg hroot] at hstep
        have hLn : L < n := lt_of_le_of_ne (hinv.2 n L hL) hroot
        obtain ⟨e0, e1, e2, e3⟩ := hset L hLn
        rw [e0, Option.some_bind, e1, Option.some_bind, e2, Option.some_bind] at hstep
        cases hw : write4 dm ((rowOff + n) * 4) (pixColor link rng L)
            (pixColor link rng L) (pixColor link rng L) 255 with
        | none => rw [hw] at hstep; simp at hstep
        | some d4 =>
            rw [hw, Option.map_some'] at hstep
            obtain ⟨rfl, rfl⟩ := pair_some_inj hstep
            have hcnt : rootCount link (n + 1) = rootCount link n := by
              rw [rootCount_succ, if_neg (by rw [hL]; exact fun hc => hroot (Option.some.inj hc))]
              omega
            have hpix : pixColor link rng n = pixColor link rng L :=
              pixColor_congr (findRoot_step hinv.2 hL hroot)
            refine ⟨by rw [hcnt]; exact hrng, ?_, ?_, ?_⟩
            · rw [write4_length hw]; exact hlen
            · intro j hj
              rw [write4_get_other hw (by omega)]
              exact hframe j (by omega)
            · intro c hc
              by_cases hcn : c = n
              · subst hcn
                rw [write4_get_0 hw, write4_get_1 hw, write4_get_2 hw, write4_get_3 hw, hpix]
                exact ⟨rfl, rfl, rfl, rfl⟩
              · have hcn' : c < n := by omega
                have huntouched : ∀ k, k < 4 →
                    d4.get? ((rowOff + c) * 4 + k) = dm.get? ((rowOff + c) * 4 + k) := by
                  intro k hk
                  exact write4_get_other hw (by omega)
                obtain ⟨f0, f1, f2, f3⟩ := hset c hcn'
                refine ⟨?_, ?_, ?_, ?_⟩
                · rw [show (rowOff + c) * 4 = (rowOff + c) * 4 + 0 by omega,
                    huntouched 0 (by omega)]
                  rw [show (rowOff + c) * 4 + 0 = (rowOff + c) * 4 by omega]
                  exact f0
                · rw [huntouched 1 (by omega)]; exact f1
                · rw [huntouched 2 (by omega)]; exact f2
                · rw [huntouched 3 (by omega)]; exact f3

/-- The colorize loop never fails when the link buffer satisfies the forest
invariant and the output buffer holds the whole row. -/
theorem colorize_isSome {link : List ℕ} {width rowOff : ℕ} (hinv : LinkInv width link)
    (data : List ℕ) (rng : ℕ) (hsz : (rowOff + width) * 4 ≤ data.length) :
    ∀ n, n ≤ width → ∃ st, foldRangeM (colorStep link rowOff) n (data, rng) = some st := by
  intro n
  induction n with
  | zero => exact fun _ => ⟨(data, rng), rfl⟩
  | succ n ih =>
      intro hn
      obtain ⟨⟨dm, rm⟩, hm⟩ := ih (by omega)
      obtain ⟨-, hlen, -, hset⟩ := colorize_run hinv data rng n (by omega) dm rm hm
      have hnw : n < width := by omega
      obtain ⟨L, hL⟩ := get?_isSome_of_lt (l := link) (by rw [hinv.1]; exact hnw)
      have hi3 : (rowOff + n) * 4 + 3 < dm.length := by
        rw [hlen]; omega
      simp only [foldRangeM_succ, hm, Option.some_bind, colorStep, hL]
      by_cases hroot : L = n
      · subst hroot
        rw [if_pos rfl]
        obtain ⟨d4, hw⟩ := write4_isSome ((⌊(mb32 rm).2 * 256⌋).toNat)
          ((⌊(mb32 rm).2 * 256⌋).toNat) ((⌊(mb32 rm).2 * 256⌋).toNat) 255 hi3
        exact ⟨(d4, (mb32 rm).1), by rw [hw, Option.map_some']⟩
      · rw [if_neg hroot]
        have hLn : L < n := lt_of_le_of_ne (hinv.2 n L hL) hroot
        obtain ⟨e0, e1, e2, e3⟩ := hset L hLn
        rw [e0, Option.some_bind, e1, Option.some_bind, e2, Option.some_bind]
        obtain ⟨d4, hw⟩ := write4_isSome (pixColor link rng L) (pixColor link rng L)
          (pixColor link rng L) 255 hi3
        exact ⟨(d4, rm), by rw [hw, Option.map_some']⟩

/-! Engine-level lemmas: frame conditions across rows, success of a full run,
and dependence of each row only on its own slice of the depth map. -/

theorem rowStep_frame {depth : List ℕ} {width : ℕ} {e o : ℚ} {y : ℕ}
    {d d' : List ℕ} {r r' : ℕ}
    (h : rowStep depth width e o y (d, r) = some (d', r')) :
    d'.length = d.length ∧ ∀ j, j < y * width * 4 → d'.get? j = d.get? j := by
  simp only [rowStep] at h
  cases hb : buildLinks depth (y * width) width e o with
  | none => rw [hb] at h; simp at h
  | some link =>
      rw [hb, Option.some_bind] at h
      have hinv := buildLinks_inv width link hb
      obtain ⟨-, hlen, hframe, -⟩ := colorize_run hinv d r width le_rfl d' r' h
      exact ⟨hlen, fun j hj => hframe j (Or.inl hj)⟩

theorem rows_frame {depth : List ℕ} {width : ℕ} {e o : ℚ} (m : ℕ) :
    ∀ k d r d' r',
      foldRangeM (fun i => rowStep depth width e o (m + i)) k (d, r) = some (d', r') →
      d'.length = d.length ∧ ∀ j, j < m * width * 4 → d'.get? j = d.get? j := by
  intro k
  induction k with
  | zero =>
      intro d r d' r' h
      obtain ⟨rfl, rfl⟩ := pair_some_inj h.symm
      exact ⟨rfl, fun _ _ => rfl⟩
  | succ k ih =>
      intro d r d' r' h
      obtain ⟨⟨dm, rm⟩, hm, hstep⟩ := foldRangeM_succ_some h
      obtain ⟨hl1, hf1⟩ := ih d r dm rm hm
      obtain ⟨hl2, hf2⟩ := rowStep_frame hstep
      refine ⟨hl2.trans hl1, fun j hj => ?_⟩
      have hmk : m * width * 4 ≤ (m + k) * width * 4 :=
        Nat.mul_le_mul_right 4 (Nat.mul_le_mul_right width (by omega))
      rw [hf2 j (by omega)]
      exact hf1 j hj

theorem engine_isSome {depth : List ℕ} {width height : ℕ} {out : List ℕ}
    {e o : ℚ} (rng0 : ℕ) (hd : width * height ≤ depth.length)
    (hout : width * height * 4 ≤ out.length) :
    ∀ n, n ≤ height →
      ∃ d' r', foldRangeM (rowStep depth width e o) n (out, rng0) = some (d', r') ∧
        d'.length = out.length := by
  intro n
  induction n with
  | zero => exact fun _ => ⟨out, rng0, rfl, rfl⟩
  | succ n ih =>
      intro hn
      obtain ⟨dm, rm, hm, hlen⟩ := ih (by omega)
      have hrow : (n + 1) * width ≤ width * height := by
        calc (n + 1) * width ≤ height * width := Nat.mul_le_mul_right width (by omega)
        _ = width * height := Nat.mul_comm height width
      have h1 : n * width + width ≤ depth.length := by
        have : n * width + width = (n + 1) * width := by ring
        omega
      obtain ⟨link, hb⟩ := buildLinks_isSome (e := e) (o := o) h1 width le_rfl
      have hinv := buildLinks_inv width link hb
      have h3 : (n * width + width) * 4 ≤ dm.length := by
        have h4 : (n * width + width) * 4 = (n + 1) * width * 4 := by ring
        have h5 : (n + 1) * width * 4 ≤ width * height * 4 :=
          Nat.mul_le_mul_right 4 hrow
        omega
      obtain ⟨⟨d', r'⟩, hc⟩ := colorize_isSome hinv dm rm h3 width le_rfl
      obtain ⟨-, hlen', -, -⟩ := colorize_run hinv dm rm width le_rfl d' r' hc
      refine ⟨d', r', ?_, by rw [hlen']; exact hlen⟩
      rw [foldRangeM_succ, hm, Option.some_bind]
      simp only [rowStep]
      have hb' : buildLinks depth (n * width) width e o = some link := hb
      rw [hb', Option.some_bind]
      exact hc

theorem linkStep_congr {d1 d2 : List ℕ} {rowOff width : ℕ} {e o : ℚ} {x : ℕ}
    (h : d1.get? (rowOff + x) = d2.get? (rowOff + x)) (link : List ℕ) :
    linkStep d1 rowOff width e o x link = linkStep d2 rowOff width e o x link := by
  simp only [linkStep]
  rw [h]

theorem buildLinks_congr {d1 d2 : List ℕ} {rowOff width : ℕ} {e o : ℚ} :
    ∀ n, (∀ x, x < n → d1.get? (rowOff + x) = d2.get? (rowOff + x)) →
      foldRangeM (linkStep d1 rowOff width e o) n (List.range width) =
        foldRangeM (linkStep d2 rowOff width e o) n (List.range width) := by
  intro n
  induction n with
  | zero => exact fun _ => rfl
  | succ n ih =>
      intro hagree
      rw [foldRangeM_succ, foldRangeM_succ, ih (fun x hx => hagree x (by omega))]
      cases hu : foldRangeM (linkStep d2 rowOff width e o) n (List.range width) with
      | none => rfl
      | some u =>
          rw [Option.some_bind, Option.some_bind]
          exact linkStep_congr (hagree n (by omega)) u

theorem rowStep_congr {d1 d2 : List ℕ} {width : ℕ} {e o : ℚ} {y : ℕ}
    (hagree : ∀ x, x < width → d1.get? (y * width + x) = d2.get? (y * width + x))
    (st : List ℕ × ℕ) :
    rowStep d1 width e o y st = rowStep d2 width e o y st := by
  simp only [rowStep]
  rw [show buildLinks d1 (y * width) width e o = buildLinks d2 (y * width) width e o
    from buildLinks_congr width hagree]

theorem engine_prefix_congr {d1 d2 : List ℕ} {width : ℕ} {e o : ℚ} {r : ℕ}
    (hagree : ∀ i, i < r * width → d1.get? i = d2.get? i) (st : List ℕ × ℕ) :
    ∀ y, y ≤ r →
      foldRangeM (rowStep d1 width e o) y st = foldRangeM (rowStep d2 width e o) y st := by
  intro y
  induction y with
  | zero => exact fun _ => rfl
  | succ y ih =>
      intro hy
      rw [foldRangeM_succ, foldRangeM_succ, ih (by omega)]
      cases hu : foldRangeM (rowStep d2 width e o) y st with
      | none => rfl
      | some u =>
          rw [Option.some_bind, Option.some_bind]
          refine rowStep_congr (fun x hx => hagree (y * width + x) ?_) u
          calc y * width + x < y * width + width := by omega
          _ = (y + 1) * width := by ring
          _ ≤ r * width := Nat.mul_le_mul_right width (by omega)

/-! Helper lemmas: value range of the random stream, and the all-roots link
buffer `List.range width`. -/

theorem mod32_lt (a : ℕ) : a % 4294967296 < 2 ^ 32 := by
  have h : a % 4294967296 < 4294967296 := Nat.mod_lt _ (by norm_num)
  omega

theorem shiftRight_self_le (a k : ℕ) : a >>> k ≤ a := by
  rw [Nat.shiftRight_eq_div_pow]
  exact Nat.div_le_self a (2 ^ k)

theorem xor_shift_lt {a : ℕ} (k : ℕ) (ha : a < 2 ^ 32) : Nat.xor a (a >>> k) < 2 ^ 32 :=
  Nat.xor_lt_two_pow ha (lt_of_le_of_lt (shiftRight_self_le a k) ha)

theorem mbOut_lt (s : ℕ) : mbOut s < 4294967296 := by
  have h32 : (4294967296 : ℕ) = 2 ^ 32 := by norm_num
  rw [h32]
  simp only [mbOut]
  exact xor_shift_lt 14 (Nat.xor_lt_two_pow (mod32_lt _) (mod32_lt _))

theorem mbValue_nonneg (s : ℕ) : 0 ≤ mbValue s := by
  rw [mbValue]
  positivity

theorem mbValue_lt_one (s : ℕ) : mbValue s < 1 := by
  rw [mbValue, div_lt_one (by norm_num)]
  have := mbOut_lt s
  exact_mod_cast this

theorem grayOf_le (s : ℕ) : grayOf s ≤ 255 := by
  rw [grayOf]
  have h : (⌊mbValue s * 256⌋ : ℤ) < 256 := by
    rw [Int.floor_lt]
    push_cast
    nlinarith [mbValue_lt_one s]
  omega

theorem linkInv_range (w : ℕ) : LinkInv w (List.range w) := by
  refine ⟨List.length_range w, fun i j hij => ?_⟩
  have hi : i < w := by
    have := get?_lt_of_some hij
    rwa [List.length_range] at this
  rw [List.get?_range hi] at hij
  exact le_of_eq (Option.some.inj hij).symm

theorem rootCount_range (w : ℕ) : ∀ n, n ≤ w → rootCount (List.range w) n = n := by
  intro n
  induction n with
  | zero => exact fun _ => rfl
  | succ n ih =>
      intro hn
      rw [rootCount_succ, ih (by omega), if_pos (List.get?_range (by omega))]

theorem findRoot_range {w x : ℕ} (hx : x < w) : findRoot (List.range w) x = some x :=
  findRoot_fix (List.get?_range hx)

theorem pixColor_range {w x : ℕ} (rng : ℕ) (hx : x < w) :
    pixColor (List.range w) rng x = grayOf (rngStep^[x + 1] rng) := by
  unfold pixColor
  rw [findRoot_range hx]
  show grayOf (rngStep^[rootCount (List.range w) x + 1] rng) = grayOf (rngStep^[x + 1] rng)
  rw [rootCount_range w x (le_of_lt hx)]

/-! The claim theorems. -/

/-- C2: `depthToSirds` is deterministic — two calls with identical depth map,
width, height, output buffer, seed, eyeSep and obsDist produce byte-identical
RGBA output.  The embedding is a pure function of exactly these inputs, so the
outputs coincide definitionally; the substance is that the source draws all its
randomness from the seeded stream and reads nothing else. -/
theorem depthToSirds_deterministic
    (d1 : List ℕ) (w1 h1 : ℕ) (o1 : List ℕ) (s1 : ℤ) (e1 q1 : ℚ)
    (d2 : List ℕ) (w2 h2 : ℕ) (o2 : List ℕ) (s2 : ℤ) (e2 q2 : ℚ)
    (hd : d1 = d2) (hw : w1 = w2) (hh : h1 = h2) (ho : o1 = o2) (hs : s1 = s2)
    (he : e1 = e2) (hq : q1 = q2) :
    depthToSirds d1 w1 h1 o1 s1 e1 q1 = depthToSirds d2 w2 h2 o2 s2 e2 q2 := by
  subst hd hw hh ho hs he hq
  rfl

/-- Witness for C2 at a concrete 1×1 input. -/
theorem depthToSirds_deterministic_witness :
    depthToSirds [0] 1 1 (List.replicate 4 0) 0 82 520 =
      depthToSirds [0] 1 1 (List.replicate 4 0) 0 82 520 :=
  depthToSirds_deterministic [0] 1 1 (List.replicate 4 0) 0 82 520
    [0] 1 1 (List.replicate 4 0) 0 82 520 rfl rfl rfl rfl rfl rfl rfl

/-- C3: forest invariant.  After any number `n` of link-construction steps
(so at every point during and after construction — `buildLinks` is the case
`n = width`), the link buffer has length `width`, satisfies `link[x] ≤ x`
everywhere, every entry differing from its index is strictly smaller (no link
ever written points rightward, which also rules out revisiting a node), and
from every column `x < width` the chain walk `findRoot` reaches a fixed point
`link[r] = r` within fuel `width`, i.e. in at most `width` steps. -/
theorem buildLinks_forest (depth : List ℕ) (rowOff width : ℕ) (e o : ℚ) (n : ℕ)
    (link : List ℕ)
    (h : foldRangeM (linkStep depth rowOff width e o) n (List.range width) = some link) :
    link.length = width ∧
    (∀ x j, link.get? x = some j → j ≤ x) ∧
    (∀ x j, link.get? x = some j → j ≠ x → j < x) ∧
    (∀ x, x < width → ∃ r, findRoot link x = some r ∧ r ≤ x ∧
      link.get? r = some r ∧ findRootAux link width x = some r) := by
  obtain ⟨hlen, hle⟩ := buildLinks_inv n link h
  refine ⟨hlen, hle, fun x j hj hne => lt_of_le_of_ne (hle x j hj) hne, fun x hx => ?_⟩
  have hxl : x < link.length := by omega
  obtain ⟨r, hr⟩ := findRootAux_isSome hle link.length x hxl hxl
  obtain ⟨hrx, hfix⟩ := findRootAux_le hle link.length x r hr
  refine ⟨r, hr, hrx, hfix, ?_⟩
  rw [← hlen]
  exact hr

/-- Witness for C3: one completed construction step on a 1-wide row. -/
theorem buildLinks_forest_witness :
    ([0] : List ℕ).length = 1 ∧
    (∀ x j, ([0] : List ℕ).get? x = some j → j ≤ x) ∧
    (∀ x j, ([0] : List ℕ).get? x = some j → j ≠ x → j < x) ∧
    (∀ x, x < 1 → ∃ r, findRoot [0] x = some r ∧ r ≤ x ∧
      ([0] : List ℕ).get? r = some r ∧ findRootAux [0] 1 x = some r) :=
  buildLinks_forest [0] 0 1 82 520 1 [0] (by with_unfolding_all decide)

/-- C5: the defining equations of the separation function: with
`d = ht - BKDEPTH`, the result is `0` whenever `d ≤ 0` (in particular exactly
`0` at the background depth itself) and `d * eyeSep / (d + obsDist)` whenever
`d > 0`; the embedding is a pure function of its three arguments. -/
theorem separation_eqns (ht eyeSep obsDist : ℚ) :
    (ht - BKDEPTH ≤ 0 → separation ht eyeSep obsDist = 0) ∧
    (0 < ht - BKDEPTH →
      separation ht eyeSep obsDist = (ht - BKDEPTH) * eyeSep / (ht - BKDEPTH + obsDist)) ∧
    separation BKDEPTH eyeSep obsDist = 0 := by
  refine ⟨fun h => by simp only [separation]; rw [if_pos h], fun h => ?_,
    by simp [separation]⟩
  simp only [separation]
  rw [if_neg (not_le.mpr h)]

/-- Witness for C5 at the background depth with the default parameters. -/
theorem separation_eqns_witness :
    ((0 : ℚ) - BKDEPTH ≤ 0 → separation 0 82 520 = 0) ∧
    (0 < (0 : ℚ) - BKDEPTH →
      separation 0 82 520 = ((0 : ℚ) - BKDEPTH) * 82 / ((0 : ℚ) - BKDEPTH + 520)) ∧
    separation BKDEPTH 82 520 = 0 :=
  separation_eqns 0 82 520

/-- C6: for fixed `eyeSep > 0` and `obsDist > 0` (the background depth is the
source constant `BKDEPTH = 0`, so the positive offset `d` is the depth sample
itself), separation is strictly increasing on positive offsets and strictly
below `eyeSep` at every finite positive offset. -/
theorem separation_strictMono (eyeSep obsDist : ℚ)
    (he : 0 < eyeSep) (ho : 0 < obsDist) :
    (∀ d1 d2 : ℚ, 0 < d1 → d1 < d2 →
      separation d1 eyeSep obsDist < separation d2 eyeSep obsDist) ∧
    (∀ d : ℚ, 0 < d → separation d eyeSep obsDist < eyeSep) := by
  have hval : ∀ d : ℚ, 0 < d →
      separation d eyeSep obsDist = d * eyeSep / (d + obsDist) := by
    intro d hd
    simp only [separation, BKDEPTH, sub_zero]
    rw [if_neg (not_le.mpr hd)]
  constructor
  · intro d1 d2 h1 h12
    rw [hval d1 h1, hval d2 (by linarith)]
    rw [div_lt_div_iff (by linarith) (by linarith)]
    nlinarith [mul_lt_mul_of_pos_right h12 (mul_pos he ho)]
  · intro d hd
    rw [hval d hd, div_lt_iff (by linarith)]
    nlinarith

/-- Witness for C6 at eyeSep 82, obsDist 520, offsets 1 < 2. -/
theorem separation_strictMono_witness :
    separation 1 82 520 < separation 2 82 520 ∧ separation 1 82 520 < 82 :=
  ⟨(separation_strictMono 82 520 (by norm_num) (by norm_num)).1 1 2 (by norm_num) (by norm_num),
    (separation_strictMono 82 520 (by norm_num) (by norm_num)).2 1 (by norm_num)⟩

/-- C9: the seed is used only as `seed >>> 0`, its reduction modulo `2^32`:
two integer seeds congruent modulo `2^32` give byte-identical output for every
depth map, dimensions, buffer and parameters. -/
theorem depthToSirds_seed_mod (depth : List ℕ) (width height : ℕ) (out : List ℕ)
    (e o : ℚ) (s1 s2 : ℤ) (hmod : s1 % 4294967296 = s2 % 4294967296) :
    depthToSirds depth width height out s1 e o =
      depthToSirds depth width height out s2 e o := by
  have h : toUint32 s1 = toUint32 s2 := by rw [toUint32, toUint32, hmod]
  simp only [depthToSirds, h]

/-- Witness for C9: the seeds 0 and 2^32 coincide. -/
theorem depthToSirds_seed_mod_witness :
    depthToSirds [] 0 0 [] 0 82 520 = depthToSirds [] 0 0 [] 4294967296 82 520 :=
  depthToSirds_seed_mod [] 0 0 [] 82 520 0 4294967296 (by decide)

/-- C4 counterexample: with `width = 0` — an invalid dimension for which the
claim demands a fatal `InvalidDimension` error — the generation call runs to
completion and produces an output image (the unchanged empty buffer) instead of
an error (`none` in the embedding).  The source contains no validation code. -/
theorem depthToSirds_no_validation_cex :
    depthToSirds [] 0 1 [] 0 82 520 = some [] := by
  with_unfolding_all decide

/-- C4 amended: `depthToSirds` performs no input validation at all and never
signals an error: with `width = 0` the call succeeds for every depth map,
height, output buffer, seed and parameters — even nonpositive ones — and
returns the output buffer unchanged; and nonpositive eyeSep and obsDist are
likewise accepted on well-formed buffers, producing an image. -/
theorem depthToSirds_no_validation (depth : List ℕ) (height : ℕ) (out : List ℕ)
    (seed : ℤ) (e o : ℚ) :
    depthToSirds depth 0 height out seed e o = some out ∧
    ∃ res, depthToSirds [0] 1 1 (List.replicate 4 0) seed e o = some res := by
  constructor
  · have hrow : ∀ y (st : List ℕ × ℕ), rowStep depth 0 e o y st = some st := fun y st => rfl
    have hfold : ∀ n (st : List ℕ × ℕ),
        foldRangeM (rowStep depth 0 e o) n st = some st := by
      intro n
      induction n with
      | zero => exact fun _ => rfl
      | succ n ih =>
          intro st
          rw [foldRangeM_succ, ih st, Option.some_bind, hrow]
    simp only [depthToSirds, hfold]
    rfl
  · have hd1 : 1 * 1 ≤ ([0] : List ℕ).length := by simp
    have hout1 : 1 * 1 * 4 ≤ (List.replicate 4 (0 : ℕ)).length := by simp
    obtain ⟨d', r', hrun, -⟩ := engine_isSome (e := e) (o := o)
      (toUint32 seed) hd1 hout1 1 le_rfl
    exact ⟨d', by simp only [depthToSirds, hrun, Option.map_some']⟩

/-- C10: safety under the size preconditions `depth.length ≥ width * height`
and `out.length ≥ width * height * 4`: in the Option-indexing embedding no
access returns `none` — the whole run returns `some` result of the output
buffer's size — every random draw lies in `[0, 1)`, and every root gray value
is at most `255`. -/
theorem depthToSirds_safe (depth : List ℕ) (width height : ℕ) (out : List ℕ)
    (seed : ℤ) (e o : ℚ)
    (hd : width * height ≤ depth.length) (hout : width * height * 4 ≤ out.length) :
    (∃ res, depthToSirds depth width height out seed e o = some res ∧
      res.length = out.length) ∧
    (∀ s : ℕ, 0 ≤ (mb32 s).2 ∧ (mb32 s).2 < 1) ∧
    (∀ s : ℕ, grayOf s ≤ 255) := by
  refine ⟨?_, fun s => ⟨mbValue_nonneg (rngStep s), mbValue_lt_one (rngStep s)⟩, grayOf_le⟩
  obtain ⟨d', r', hrun, hlen⟩ := engine_isSome (e := e) (o := o)
    (toUint32 seed) hd hout height le_rfl
  exact ⟨d', by simp only [depthToSirds, hrun, Option.map_some'], hlen⟩

/-- Witness for C10 at a concrete 1×1 input. -/
theorem depthToSirds_safe_witness :
    (∃ res, depthToSirds [0] 1 1 (List.replicate 4 0) 0 82 520 = some res ∧
      res.length = (List.replicate 4 (0 : ℕ)).length) ∧
    (∀ s : ℕ, 0 ≤ (mb32 s).2 ∧ (mb32 s).2 < 1) ∧
    (∀ s : ℕ, grayOf s ≤ 255) :=
  depthToSirds_safe [0] 1 1 (List.replicate 4 0) 0 82 520 (by decide) (by decide)

/-- C7: after a successful `depthToSirds` call, every pixel `(x, y)` has alpha
`255` and is gray (`R = G = B = v` with `v ≤ 255`); its value equals the value
written at the root `r` of `x`'s link chain in row `y`'s forest (`link` is row
`y`'s completed link buffer); and when `x` is itself a root (`link[x] = x`) the
value is the fresh draw `floor(random() * 256)` that the stream produces after
the roots to its left, starting from `rngY`, the stream state at which row `y`
began.  Non-root columns thus hold a copy of bytes written earlier in the same
left-to-right scan (`link[x] < x`). -/
theorem depthToSirds_pixels (depth : List ℕ) (width height : ℕ) (out : List ℕ)
    (seed : ℤ) (e o : ℚ) (res : List ℕ)
    (hrun : depthToSirds depth width height out seed e o = some res) :
    ∀ y, y < height → ∃ link rngY,
      buildLinks depth (y * width) width e o = some link ∧
      ∀ x, x < width → ∃ r v,
        findRoot link x = some r ∧ v ≤ 255 ∧
        res.get? ((y * width + x) * 4) = some v ∧
        res.get? ((y * width + x) * 4 + 1) = some v ∧
        res.get? ((y * width + x) * 4 + 2) = some v ∧
        res.get? ((y * width + x) * 4 + 3) = some 255 ∧
        res.get? ((y * width + r) * 4) = some v ∧
        (link.get? x = some x → v = grayOf (rngStep^[rootCount link x + 1] rngY)) := by
  intro y hy
  simp only [depthToSirds] at hrun
  cases hfull : foldRangeM (rowStep depth width e o) height (out, toUint32 seed) with
  | none => rw [hfull] at hrun; simp at hrun
  | some stF =>
      rw [hfull, Option.map_some'] at hrun
      obtain ⟨dF, rF⟩ := stF
      obtain rfl : dF = res := Option.some.inj hrun
      obtain ⟨k, hk⟩ := Nat.exists_eq_add_of_le (Nat.succ_le_of_lt hy)
      rw [hk, foldRangeM_add] at hfull
      cases hpre : foldRangeM (rowStep depth width e o) (y + 1) (out, toUint32 seed) with
      | none => rw [hpre] at hfull; simp at hfull
      | some stY =>
          rw [hpre, Option.some_bind] at hfull
          obtain ⟨dY, rY'⟩ := stY
          obtain ⟨⟨dP, rngY⟩, hP, hstepY⟩ := foldRangeM_succ_some hpre
          simp only [rowStep] at hstepY
          cases hb : buildLinks depth (y * width) width e o with
          | none => rw [hb] at hstepY; simp at hstepY
          | some link =>
              rw [hb, Option.some_bind] at hstepY
              have hinv := buildLinks_inv width link hb
              obtain ⟨-, -, -, hsetY⟩ := colorize_run hinv dP rngY width le_rfl dY rY' hstepY
              obtain ⟨-, hfr⟩ := rows_frame (y + 1) k dY rY' dF rF hfull
              have heq4 : (y + 1) * width * 4 = (y * width + width) * 4 := by ring
              refine ⟨link, rngY, rfl, fun x hx => ?_⟩
              obtain ⟨r, hr⟩ := findRootAux_isSome hinv.2 link.length x
                (by rw [hinv.1]; exact hx) (by rw [hinv.1]; exact hx)
              obtain ⟨hrx, hfix⟩ := findRootAux_le hinv.2 link.length x r hr
              have hrfind : findRoot link x = some r := hr
              set v := pixColor link rngY x with hv
              have hvr : pixColor link rngY r = v := by
                rw [hv]
                exact pixColor_congr (by rw [findRoot_fix hfix, hrfind])
              have hvgray : v = grayOf (rngStep^[rootCount link r + 1] rngY) := by
                rw [hv]
                unfold pixColor
                rw [hrfind]
              have hvle : v ≤ 255 := by rw [hvgray]; exact grayOf_le _
              obtain ⟨e0, e1, e2, e3⟩ := hsetY x hx
              obtain ⟨f0, -, -, -⟩ := hsetY r (lt_of_le_of_lt hrx hx)
              rw [hvr] at f0
              refine ⟨r, v, hrfind, hvle, ?_, ?_, ?_, ?_, ?_, ?_⟩
              · rw [hfr _ (by rw [heq4]; omega)]; exact e0
              · rw [hfr _ (by rw [heq4]; omega)]; exact e1
              · rw [hfr _ (by rw [heq4]; omega)]; exact e2
              · rw [hfr _ (by rw [heq4]; omega)]; exact e3
              · rw [hfr _ (by rw [heq4]; omega)]; exact f0
              · intro hxroot
                have hsx : some r = some x := by rw [← hrfind, findRoot_fix hxroot]
                obtain rfl : r = x := Option.some.inj hsx
                exact hvgray

/-- Witness for C7: the concrete 1×1 run with seed 0 produces the single gray
pixel (68, 68, 68, 255). -/
theorem depthToSirds_pixels_witness :
    ∃ link rngY,
      buildLinks [0] (0 * 1) 1 82 520 = some link ∧
      ∀ x, x < 1 → ∃ r v,
        findRoot link x = some r ∧ v ≤ 255 ∧
        ([68, 68, 68, 255] : List ℕ).get? ((0 * 1 + x) * 4) = some v ∧
        ([68, 68, 68, 255] : List ℕ).get? ((0 * 1 + x) * 4 + 1) = some v ∧
        ([68, 68, 68, 255] : List ℕ).get? ((0 * 1 + x) * 4 + 2) = some v ∧
        ([68, 68, 68, 255] : List ℕ).get? ((0 * 1 + x) * 4 + 3) = some 255 ∧
        ([68, 68, 68, 255] : List ℕ).get? ((0 * 1 + r) * 4) = some v ∧
        (link.get? x = some x → v = grayOf (rngStep^[rootCount link x + 1] rngY)) :=
  depthToSirds_pixels [0] 1 1 (List.replicate 4 0) 0 82 520 [68, 68, 68, 255]
    (by with_unfolding_all decide) 0 (by decide)

/-- C8 counterexample: the claim states `separation = 255*80/(255+400) =
31.18…`, but the exact value is `4080/131 = 31.145…`, strictly below `31.18`;
the claimed decimal expansion is wrong (the nearby conclusions — `leftX = -11`,
no link — survive with the corrected value). -/
theorem scenario_separation_cex :
    separation 255 80 400 = 4080 / 131 ∧ separation 255 80 400 < 1559 / 50 := by
  refine ⟨by with_unfolding_all rfl, ?_⟩
  set_option maxRecDepth 1500 in with_unfolding_all decide

/-- C8 amended: in the concrete scenario (width 10, height 1, depth row
`[0,0,0,0,0,255,0,0,0,0]`, eyeSep 80, obsDist 400, background 0), column 5 has
`d = 255` and separation `255*80/(255+400) = 4080/131 = 31.145…` (not 31.18…),
half `= 2040/131 ≈ 15.57`, `leftX = floor(5 - half) = -11 < 0`, so no link is
created: link construction returns the identity buffer, and for every seed the
output row is pure independent noise — column `x` is its own root and carries
draw `x+1` of the seeded stream as an opaque gray pixel. -/
theorem scenario_no_link (seed : ℤ) :
    separation 255 80 400 = 4080 / 131 ∧
    ⌊(5 : ℚ) - separation 255 80 400 * (1 / 2)⌋ = -11 ∧
    buildLinks [0, 0, 0, 0, 0, 255, 0, 0, 0, 0] 0 10 80 400 = some (List.range 10) ∧
    ∃ res,
      depthToSirds [0, 0, 0, 0, 0, 255, 0, 0, 0, 0] 10 1 (List.replicate 40 0) seed 80 400 =
        some res ∧
      ∀ x, x < 10 →
        res.get? (x * 4) = some (grayOf (rngStep^[x + 1] (toUint32 seed))) ∧
        res.get? (x * 4 + 1) = some (grayOf (rngStep^[x + 1] (toUint32 seed))) ∧
        res.get? (x * 4 + 2) = some (grayOf (rngStep^[x + 1] (toUint32 seed))) ∧
        res.get? (x * 4 + 3) = some 255 := by
  have h1 : separation 255 80 400 = 4080 / 131 := by with_unfolding_all rfl
  refine ⟨h1, by rw [h1]; with_unfolding_all rfl,
    by set_option maxRecDepth 1500 in with_unfolding_all decide, ?_⟩
  have hinv : LinkInv 10 (List.range 10) := linkInv_range 10
  have hsz : (0 * 10 + 10) * 4 ≤ (List.replicate 40 (0 : ℕ)).length := by simp
  obtain ⟨⟨d', r'⟩, hc⟩ :=
    colorize_isSome hinv (List.replicate 40 0) (toUint32 seed) hsz 10 le_rfl
  obtain ⟨-, -, -, hset⟩ :=
    colorize_run hinv (List.replicate 40 0) (toUint32 seed) 10 le_rfl d' r' hc
  refine ⟨d', ?_, ?_⟩
  · simp only [depthToSirds, foldRangeM_succ, foldRangeM_zero, Option.some_bind, rowStep]
    have hb : buildLinks [0, 0, 0, 0, 0, 255, 0, 0, 0, 0] (0 * 10) 10 80 400 =
        some (List.range 10) := by
      rw [Nat.zero_mul]
      set_option maxRecDepth 1500 in with_unfolding_all decide
    rw [hb, Option.some_bind]
    rw [show colorizeRow (List.range 10) (0 * 10) 10 (List.replicate 40 0) (toUint32 seed) =
      foldRangeM (colorStep (List.range 10) (0 * 10)) 10 (List.replicate 40 0, toUint32 seed)
      from rfl, hc]
    rfl
  · intro x hx
    obtain ⟨e0, e1, e2, e3⟩ := hset x hx
    rw [Nat.zero_mul, Nat.zero_add] at e0 e1 e2 e3
    rw [pixColor_range (toUint32 seed) hx] at e0 e1 e2
    exact ⟨e0, e1, e2, e3⟩

/-- C1 counterexample: two 4×2 runs whose depth maps differ only within row 0
(at index 2, which creates one link in row 0 of the second run) produce
different bytes in row 1: byte 16 — the red byte of pixel (0, 1) — is 119 in
the first run and 37 in the second.  The depth change alters the number of
root columns of row 0 and therefore shifts the draw position of the single
shared random stream for every later row, so rows other than the mutated one
are not byte-identical. -/
theorem row_independence_cex :
    (depthToSirds [0, 0, 0, 0, 0, 0, 0, 0] 4 2 (List.replicate 32 0) 0 4 1).bind
        (fun l => l.get? 16) ≠
      (depthToSirds [0, 0, 255, 0, 0, 0, 0, 0] 4 2 (List.replicate 32 0) 0 4 1).bind
        (fun l => l.get? 16) := by
  set_option maxRecDepth 1500 in with_unfolding_all decide

/-- C1 amended: mutating depth samples only within row `r` leaves every row
BEFORE `r` byte-identical (all bytes at indices below `r * width * 4`); rows
`r` and later may change, because the number of roots in row `r` — and with it
the draw count taken from the single shared random stream — can change, as the
counterexample shows. -/
theorem row_independence_before (d1 d2 : List ℕ) (width height : ℕ) (out : List ℕ)
    (seed : ℤ) (e o : ℚ) (r : ℕ) (res1 res2 : List ℕ)
    (hagree : ∀ i, i < r * width ∨ (r + 1) * width ≤ i → d1.get? i = d2.get? i)
    (h1 : depthToSirds d1 width height out seed e o = some res1)
    (h2 : depthToSirds d2 width height out seed e o = some res2) :
    ∀ j, j < r * width * 4 → res1.get? j = res2.get? j := by
  intro j hj
  simp only [depthToSirds] at h1 h2
  by_cases hc : height ≤ r
  · have heq := engine_prefix_congr (e := e) (o := o)
      (fun i hi => hagree i (Or.inl hi)) (out, toUint32 seed) height hc
    rw [heq] at h1
    rw [h1] at h2
    obtain rfl := Option.some.inj h2
    rfl
  · push_neg at hc
    obtain ⟨k, hk⟩ := Nat.exists_eq_add_of_le (le_of_lt hc)
    rw [hk, foldRangeM_add] at h1 h2
    have hpre := engine_prefix_congr (e := e) (o := o)
      (fun i hi => hagree i (Or.inl hi)) (out, toUint32 seed) r le_rfl
    cases hR : foldRangeM (rowStep d2 width e o) r (out, toUint32 seed) with
    | none => rw [hpre, hR] at h1; simp at h1
    | some stR =>
        obtain ⟨dR, rngR⟩ := stR
        rw [hpre, hR, Option.some_bind] at h1
        rw [hR, Option.some_bind] at h2
        cases hs1 : foldRangeM (fun i => rowStep d1 width e o (r + i)) k (dR, rngR) with
        | none => rw [hs1] at h1; simp at h1
        | some st1 =>
            obtain ⟨dF1, rF1⟩ := st1
            rw [hs1, Option.map_some'] at h1
            obtain rfl : dF1 = res1 := Option.some.inj h1
            cases hs2 : foldRangeM (fun i => rowStep d2 width e o (r + i)) k (dR, rngR) with
            | none => rw [hs2] at h2; simp at h2
            | some st2 =>
                obtain ⟨dF2, rF2⟩ := st2
                rw [hs2, Option.map_some'] at h2
                obtain rfl : dF2 = res2 := Option.some.inj h2
                obtain ⟨-, hf1⟩ := rows_frame r k dR rngR dF1 rF1 hs1
                obtain ⟨-, hf2⟩ := rows_frame r k dR rngR dF2 rF2 hs2
                rw [hf1 j hj, hf2 j hj]

/-- Witness for C1 amended: a 1×1 run compared with itself at r = 1, byte 0. -/
theorem row_independence_before_witness :
    ([68, 68, 68, 255] : List ℕ).get? 0 = ([68, 68, 68, 255] : List ℕ).get? 0 :=
  row_independence_before [0] [0] 1 1 (List.replicate 4 0) 0 82 520 1
    [68, 68, 68, 255] [68, 68, 68, 255] (fun i _ => rfl)
    (by with_unfolding_all decide) (by with_unfolding_all decide) 0 (by decide)
